import Mathlib

/-!
Shallow embedding of the YUYV encoder `GetRawYUYVData` from `src/main.cpp`
(lines 8-53) of the `image_format` repository, together with theorems about
its byte layout, arithmetic, and purity.

Modelling conventions:
* C++ `int` arithmetic is modelled on `Int` (the intermediate values here fit
  easily in 32 bits, so no overflow reduction is needed before the final
  narrowing casts).
* `static_cast<uint8_t>` on an `int` is reduction modulo 256; storing an `int`
  into a `uint8_t` variable likewise reduces modulo 256.  Bytes are modelled
  as `Nat` values (always < 256 after such a reduction).
* The C++ `>>` on a signed `int` is an arithmetic right shift, which `Int`'s
  `>>>` implements (floor semantics on negative values).
* The `cv::Mat` pixel source `bgr.at<cv::Vec3b>(y, x)` is modelled as a total
  function `pixel : Nat → Nat → Pixel`.  The code reads the Vec3b in BGR
  order and passes components to the lambdas as `(p[2], p[1], p[0])`, i.e. in
  (R, G, B) order, so `Pixel` stores the logical red/green/blue components.
* The C++ code preallocates `buffer(W * H * 2)` and fills it with a single
  running index `idx`, writing exactly four bytes per inner iteration and
  exactly `W * H * 2` bytes in total, in loop order.  The buffer is therefore
  modelled as the concatenation, in loop order, of the four-byte groups.
-/

/-- One source pixel: an (R, G, B) triple of 8-bit components. -/
structure Pixel where
  r : Nat
  g : Nat
  b : Nat
deriving DecidableEq

/-- The encoder's input: dimensions plus a pixel accessor (the `cv::Mat bgr`
argument of `GetRawYUYVData`, `W = bgr.cols`, `H = bgr.rows`). -/
structure Image where
  width : Nat
  height : Nat
  pixel : Nat → Nat → Pixel

/-- `static_cast<uint8_t>` applied to a C++ `int`: reduction modulo 256.
`Int.emod` by a positive modulus is non-negative, so `toNat` is lossless. -/
def toUInt8Cast (v : Int) : Nat := (v % 256).toNat

/-- The `RGB2Y` lambda of main.cpp line 29,
`static_cast<uint8_t>((66*r + 129*g + 25*b + 128) >> 8) + 16`, as stored into
the `uint8_t` variables `Y0`/`Y1` (hence the outer `% 256`). -/
def RGB2Y (r g b : Nat) : Nat :=
  (toUInt8Cast ((66 * (r : Int) + 129 * (g : Int) + 25 * (b : Int) + 128) >>> (8 : Nat)) + 16)
    % 256

/-- The `RGB2U` lambda of main.cpp line 30,
`static_cast<uint8_t>((-38*r - 74*g + 112*b + 128) >> 8) + 128`, as stored
into the `uint8_t` variables `U0`/`U1`. -/
def RGB2U (r g b : Nat) : Nat :=
  (toUInt8Cast (((-38) * (r : Int) - 74 * (g : Int) + 112 * (b : Int) + 128) >>> (8 : Nat)) + 128)
    % 256

/-- The `RGB2V` lambda of main.cpp line 31,
`static_cast<uint8_t>((112*r - 94*g - 18*b + 128) >> 8) + 128`, as stored
into the `uint8_t` variables `V0`/`V1`. -/
def RGB2V (r g b : Nat) : Nat :=
  (toUInt8Cast ((112 * (r : Int) - 94 * (g : Int) - 18 * (b : Int) + 128) >>> (8 : Nat)) + 128)
    % 256

/-- One inner-loop iteration of `GetRawYUYVData` (main.cpp lines 25-49): the
four bytes written for the pixel pair `(p0, p1)` in emission order
`Y0, U, Y1, V`, with `U = (U0 + U1) / 2` and `V = (V0 + V1) / 2` computed in
non-negative `int` arithmetic (truncating division equals floor division
here). -/
def yuyvPack (p0 p1 : Pixel) : List Nat :=
  [ RGB2Y p0.r p0.g p0.b,
    (RGB2U p0.r p0.g p0.b + RGB2U p1.r p1.g p1.b) / 2,
    RGB2Y p1.r p1.g p1.b,
    (RGB2V p0.r p0.g p0.b + RGB2V p1.r p1.g p1.b) / 2 ]

/-- The width truncation of main.cpp line 13: `if (W % 2 != 0) W--;`. -/
def evenWidth (w : Nat) : Nat := if w % 2 ≠ 0 then w - 1 else w

/-- The inner loop of main.cpp lines 23-50 for one row `y`:
`for (x = 0; x < W; x += 2)` with even `W` performs `W / 2` iterations, the
iteration with `x = 2 * i` reading pixels `(2*i, y)` and `(2*i + 1, y)`. -/
def encodeRow (img : Image) (W y : Nat) : List Nat :=
  (List.range (W / 2)).flatMap fun i =>
    yuyvPack (img.pixel (2 * i) y) (img.pixel (2 * i + 1) y)

/-- The outer loop of main.cpp lines 22-51: all rows in increasing `y`,
using the truncated width. -/
def encodeBuffer (img : Image) : List Nat :=
  (List.range img.height).flatMap fun y => encodeRow img (evenWidth img.width) y

/-- The full result of `GetRawYUYVData`: the returned byte vector together
with the out-parameters `out_w` and `out_h` (main.cpp lines 15-16). -/
structure YUYVResult where
  buffer : List Nat
  out_w : Nat
  out_h : Nat
deriving DecidableEq

/-- `GetRawYUYVData` of main.cpp lines 8-53. -/
def GetRawYUYVData (img : Image) : YUYVResult :=
  { buffer := encodeBuffer img
    out_w := evenWidth img.width
    out_h := img.height }

/-- The `(x, y)` coordinates at which `GetRawYUYVData` reads the source image
(the two `bgr.at<cv::Vec3b>` calls of main.cpp lines 25-26), listed in the
order the loops perform them. -/
def accessedCoords (W H : Nat) : List (Nat × Nat) :=
  (List.range H).flatMap fun y =>
    (List.range (evenWidth W / 2)).flatMap fun i => [(2 * i, y), (2 * i + 1, y)]

/-!  Spec-side functions for the numerical claim.  These follow the spec's
words — "the weighted sum plus 128 is arithmetically right-shifted by 8, the
result is narrowed to an 8-bit unsigned value modulo 256 (no saturation), and
only then is the offset added, with the final stored byte again taken modulo
256" — writing the arithmetic right shift by 8 as floor division by `2 ^ 8`
(Lean's `Int` division rounds toward minus infinity for a positive divisor)
and 8-bit narrowing as reduction modulo `2 ^ 8`. -/

/-- Spec formula for Y: `uint8((66*R + 129*G + 25*B + 128) >> 8) + 16` with an
arithmetic shift (floor division by `2 ^ 8`) and modulo-256 narrowing. -/
def specFormulaY (r g b : Nat) : Nat :=
  ((((66 * (r : Int) + 129 * (g : Int) + 25 * (b : Int) + 128) / 2 ^ 8) % 2 ^ 8).toNat + 16)
    % 2 ^ 8

/-- Spec formula for U: `uint8((-38*R - 74*G + 112*B + 128) >> 8) + 128`,
shift and narrowing as in `specFormulaY`. -/
def specFormulaU (r g b : Nat) : Nat :=
  (((((-38) * (r : Int) - 74 * (g : Int) + 112 * (b : Int) + 128) / 2 ^ 8) % 2 ^ 8).toNat + 128)
    % 2 ^ 8

/-- Spec formula for V: `uint8((112*R - 94*G - 18*B + 128) >> 8) + 128`,
shift and narrowing as in `specFormulaY`. -/
def specFormulaV (r g b : Nat) : Nat :=
  ((((112 * (r : Int) - 94 * (g : Int) - 18 * (b : Int) + 128) / 2 ^ 8) % 2 ^ 8).toNat + 128)
    % 2 ^ 8

/-! Helper lemmas. -/

/-- `Int`'s right shift by 8 is the arithmetic shift: floor division by 256. -/
lemma int_shiftRight_eight (v : Int) : v >>> (8 : Nat) = v / 256 := by
  rcases v with a | a
  · show Int.ofNat (a >>> 8) = _
    rw [Nat.shiftRight_eq_div_pow]
    norm_num
  · show Int.negSucc (a >>> 8) = _
    rw [Nat.shiftRight_eq_div_pow]
    simp only [Int.negSucc_eq]
    norm_num
    omega

lemma length_yuyvPack (p0 p1 : Pixel) : (yuyvPack p0 p1).length = 4 := rfl

lemma evenWidth_mod_two (w : Nat) : evenWidth w % 2 = 0 := by
  unfold evenWidth
  split <;> omega

lemma evenWidth_of_even {w : Nat} (h : w % 2 = 0) : evenWidth w = w := by
  unfold evenWidth
  split <;> omega

lemma evenWidth_of_odd {w : Nat} (h : w % 2 = 1) : evenWidth w = w - 1 := by
  unfold evenWidth
  split <;> omega

/-- A `flatMap` over `List.range n` whose pieces all have length `L` has
length `n * L`. -/
lemma length_flatMap_range {α : Type} (f : Nat → List α) (L n : Nat)
    (hf : ∀ k, (f k).length = L) :
    ((List.range n).flatMap f).length = n * L := by
  induction n with
  | zero => simp
  | succ n ih =>
      rw [List.range_succ, List.flatMap_append, List.length_append, ih,
        List.flatMap_cons, List.flatMap_nil, List.length_append, hf n,
        List.length_nil, Nat.succ_mul]
      omega

/-- Indexing into a `flatMap` over `List.range n` with constant piece length:
position `i * L + j` falls in piece `i` at offset `j`. -/
lemma getElem?_flatMap_range {α : Type} (f : Nat → List α) (L n i j : Nat)
    (hf : ∀ k, (f k).length = L) (hi : i < n) (hj : j < L) :
    ((List.range n).flatMap f)[i * L + j]? = (f i)[j]? := by
  induction n with
  | zero => omega
  | succ n ih =>
      rw [List.range_succ, List.flatMap_append, List.getElem?_append,
        length_flatMap_range f L n hf]
      rcases Nat.lt_or_ge i n with h | h
      · rw [if_pos]
        · exact ih h
        · have : i * L + L ≤ n * L := by
            calc i * L + L = (i + 1) * L := (Nat.succ_mul i L).symm
            _ ≤ n * L := Nat.mul_le_mul_right L (by omega)
          omega
      · have hin : i = n := by omega
        subst hin
        rw [if_neg (by omega)]
        have : i * L + j - i * L = j := by omega
        rw [this, List.flatMap_cons, List.flatMap_nil, List.append_nil]

/-- Four consecutive `getElem?` hits pin down `(l.drop o).take 4` exactly. -/
lemma take_four_of_getElem? {α : Type} (l : List α) (o : Nat) (a0 a1 a2 a3 : α)
    (h0 : l[o]? = some a0) (h1 : l[o + 1]? = some a1)
    (h2 : l[o + 2]? = some a2) (h3 : l[o + 3]? = some a3) :
    (l.drop o).take 4 = [a0, a1, a2, a3] := by
  apply List.ext_getElem?
  intro m
  rw [List.getElem?_take]
  match m with
  | 0 => rw [if_pos (by omega), List.getElem?_drop]; exact h0
  | 1 => rw [if_pos (by omega), List.getElem?_drop]; exact h1
  | 2 => rw [if_pos (by omega), List.getElem?_drop]; exact h2
  | 3 => rw [if_pos (by omega), List.getElem?_drop]; exact h3
  | (m + 4) => rw [if_neg (by omega)]; rfl

lemma length_encodeRow (img : Image) (W y : Nat) :
    (encodeRow img W y).length = W / 2 * 4 :=
  length_flatMap_range _ 4 _ fun _ => rfl

lemma length_encodeBuffer (img : Image) :
    (encodeBuffer img).length = evenWidth img.width * img.height * 2 := by
  unfold encodeBuffer
  rw [length_flatMap_range _ (evenWidth img.width / 2 * 4) _
    (fun y => length_encodeRow img (evenWidth img.width) y)]
  have h2 : evenWidth img.width % 2 = 0 := evenWidth_mod_two img.width
  obtain ⟨k, hk⟩ : ∃ k, evenWidth img.width = 2 * k := ⟨evenWidth img.width / 2, by omega⟩
  rw [hk]
  rw [Nat.mul_div_cancel_left k (by omega)]
  ring

/-- Every coordinate the encoder reads lies strictly inside the truncated
width and the height. -/
lemma accessedCoords_bound {W H : Nat} {c : Nat × Nat}
    (hc : c ∈ accessedCoords W H) : c.1 < evenWidth W ∧ c.2 < H := by
  unfold accessedCoords at hc
  rw [List.mem_flatMap] at hc
  obtain ⟨y, hy, hc⟩ := hc
  rw [List.mem_range] at hy
  rw [List.mem_flatMap] at hc
  obtain ⟨i, hi, hc⟩ := hc
  rw [List.mem_range] at hi
  have h2 : evenWidth W % 2 = 0 := evenWidth_mod_two W
  simp only [List.mem_cons, List.not_mem_nil, or_false] at hc
  rcases hc with h | h <;> rw [h] <;> exact ⟨by simp; omega, hy⟩

/-- Both reads of loop iteration `(y, i)` appear in `accessedCoords`. -/
lemma mem_accessedCoords_of_iter {W H y i : Nat} (hy : y < H)
    (hi : i < evenWidth W / 2) :
    (2 * i, y) ∈ accessedCoords W H ∧ (2 * i + 1, y) ∈ accessedCoords W H := by
  unfold accessedCoords
  constructor <;>
    · rw [List.mem_flatMap]
      refine ⟨y, List.mem_range.mpr hy, ?_⟩
      rw [List.mem_flatMap]
      exact ⟨i, List.mem_range.mpr hi, by simp⟩

/-- The buffer depends only on the pixels the loops actually read. -/
lemma encodeBuffer_eq_of_agree (img1 img2 : Image)
    (hw : img2.width = img1.width) (hh : img2.height = img1.height)
    (hp : ∀ c ∈ accessedCoords img1.width img1.height,
      img1.pixel c.1 c.2 = img2.pixel c.1 c.2) :
    encodeBuffer img1 = encodeBuffer img2 := by
  unfold encodeBuffer
  rw [hw, hh]
  apply List.flatMap_congr
  intro y hy
  rw [List.mem_range] at hy
  unfold encodeRow
  apply List.flatMap_congr
  intro i hi
  rw [List.mem_range] at hi
  obtain ⟨h0, h1⟩ := mem_accessedCoords_of_iter hy hi
  rw [hp _ h0, hp _ h1]

/-- `flatMap` of a constant function over `List.range`. -/
lemma flatMap_range_const {α : Type} (n : Nat) (xs : List α) :
    (List.range n).flatMap (fun _ => xs) = (List.replicate n xs).flatten := by
  induction n with
  | zero => rfl
  | succ n ih =>
      rw [List.range_succ, List.flatMap_append, ih, List.flatMap_cons,
        List.flatMap_nil, List.append_nil, List.replicate_succ',
        List.flatten_append, List.flatten_cons, List.flatten_nil,
        List.append_nil]

/-- Flattening nested replicated blocks. -/
lemma flatten_replicate_flatten {α : Type} (n m : Nat) (xs : List α) :
    (List.replicate n ((List.replicate m xs).flatten)).flatten
      = (List.replicate (n * m) xs).flatten := by
  induction n with
  | zero => simp
  | succ n ih =>
      rw [List.replicate_succ, List.flatten_cons, ih, Nat.succ_mul,
        Nat.add_comm (n * m) m, List.replicate_add, List.flatten_append]

/-- On a uniform image the buffer is the macropixel of the constant colour,
replicated once per pixel pair. -/
lemma encodeBuffer_uniform (img : Image) (c : Pixel)
    (hp : ∀ x y, img.pixel x y = c) :
    encodeBuffer img
      = (List.replicate (img.height * (evenWidth img.width / 2)) (yuyvPack c c)).flatten := by
  unfold encodeBuffer encodeRow
  have hrow : ∀ y, ((List.range (evenWidth img.width / 2)).flatMap fun i =>
      yuyvPack (img.pixel (2 * i) y) (img.pixel (2 * i + 1) y))
        = (List.replicate (evenWidth img.width / 2) (yuyvPack c c)).flatten := by
    intro y
    rw [show ((List.range (evenWidth img.width / 2)).flatMap fun i =>
        yuyvPack (img.pixel (2 * i) y) (img.pixel (2 * i + 1) y))
        = (List.range (evenWidth img.width / 2)).flatMap fun _ => yuyvPack c c from
      List.flatMap_congr fun i _ => by rw [hp, hp]]
    exact flatMap_range_const _ _
  rw [List.flatMap_congr fun y _ => hrow y, flatMap_range_const,
    flatten_replicate_flatten]

/-- Byte `j` of the macropixel group for the pair at `(x, x+1)` in row `y`
sits at buffer offset `(y * evenWidth + x) * 2 + j`. -/
lemma getElem?_encodeBuffer (img : Image) (y x j : Nat) (hy : y < img.height)
    (hxe : x % 2 = 0) (hx : x < evenWidth img.width) (hj : j < 4) :
    (encodeBuffer img)[(y * evenWidth img.width + x) * 2 + j]?
      = (yuyvPack (img.pixel x y) (img.pixel (x + 1) y))[j]? := by
  have h2 : evenWidth img.width % 2 = 0 := evenWidth_mod_two img.width
  obtain ⟨k, hk⟩ : ∃ k, evenWidth img.width = 2 * k := ⟨evenWidth img.width / 2, by omega⟩
  obtain ⟨m, hm⟩ : ∃ m, x = 2 * m := ⟨x / 2, by omega⟩
  have hdiv : evenWidth img.width / 2 = k := by omega
  have e1 : (y * evenWidth img.width + x) * 2 + j
      = y * (evenWidth img.width / 2 * 4) + (m * 4 + j) := by
    rw [hdiv, hk, hm]
    ring
  rw [e1]
  unfold encodeBuffer
  rw [getElem?_flatMap_range _ (evenWidth img.width / 2 * 4) _ y (m * 4 + j)
    (fun yy => length_encodeRow img _ yy) hy (by omega)]
  unfold encodeRow
  rw [getElem?_flatMap_range _ 4 _ m j (fun _ => length_yuyvPack _ _) (by omega) hj]
  rw [← hm]

/-! The claims. -/

/-- C1: bytes are emitted in row-major order, rows in increasing `y`,
macropixel groups left-to-right; for each row `y` and each even `x` below the
truncated width, the four consecutive bytes at offset
`(y * EvenWidth + x) * 2` are exactly `[Y(x,y), U_avg, Y(x+1,y), V_avg]`
(that list is `yuyvPack (pixel x y) (pixel (x+1) y)`). -/
theorem c1_row_major_macropixel_layout (img : Image) (y x : Nat)
    (hy : y < img.height) (hxe : x % 2 = 0) (hx : x < evenWidth img.width) :
    (((GetRawYUYVData img).buffer.drop ((y * evenWidth img.width + x) * 2)).take 4)
      = yuyvPack (img.pixel x y) (img.pixel (x + 1) y) := by
  apply take_four_of_getElem?
  · simpa using getElem?_encodeBuffer img y x 0 hy hxe hx (by omega)
  · simpa using getElem?_encodeBuffer img y x 1 hy hxe hx (by omega)
  · simpa using getElem?_encodeBuffer img y x 2 hy hxe hx (by omega)
  · simpa using getElem?_encodeBuffer img y x 3 hy hxe hx (by omega)

/-- Witness for C1: concrete 4×1 image, pair at `x = 2`, row `y = 0`. -/
theorem c1_row_major_macropixel_layout_witness :
    (((GetRawYUYVData ⟨4, 1, fun _ _ => ⟨0, 0, 0⟩⟩).buffer.drop
        ((0 * evenWidth (4 : Nat) + 2) * 2)).take 4)
      = yuyvPack ⟨0, 0, 0⟩ ⟨0, 0, 0⟩ :=
  c1_row_major_macropixel_layout ⟨4, 1, fun _ _ => ⟨0, 0, 0⟩⟩ 0 2
    (by decide) (by decide) (by decide)

/-- C2: the stored Y, U, V bytes follow the exact integer recipe of the spec:
weighted sum plus 128, arithmetic right shift by 8 (floor division by `2^8`),
narrowing modulo `2^8` with no saturation, then the +16 / +128 offset, and a
final reduction modulo `2^8` when storing the byte. -/
theorem c2_yuv_integer_formulas (r g b : Nat) :
    RGB2Y r g b = specFormulaY r g b
    ∧ RGB2U r g b = specFormulaU r g b
    ∧ RGB2V r g b = specFormulaV r g b := by
  refine ⟨?_, ?_, ?_⟩
  · unfold RGB2Y specFormulaY toUInt8Cast
    rw [int_shiftRight_eight]
    norm_num
  · unfold RGB2U specFormulaU toUInt8Cast
    rw [int_shiftRight_eight]
    norm_num
  · unfold RGB2V specFormulaV toUInt8Cast
    rw [int_shiftRight_eight]
    norm_num

/-- C3: per pixel pair the emitted chroma bytes are the floor averages
`(U0 + U1) / 2` and `(V0 + V1) / 2` of the two individually computed chroma
values, both lumas `Y0`, `Y1` are kept, and exactly one averaged U and one
averaged V appear in the group. -/
theorem c3_chroma_average_per_pair (img : Image) (y x : Nat)
    (hy : y < img.height) (hxe : x % 2 = 0) (hx : x < evenWidth img.width) :
    (GetRawYUYVData img).buffer[(y * evenWidth img.width + x) * 2]?
        = some (RGB2Y (img.pixel x y).r (img.pixel x y).g (img.pixel x y).b)
    ∧ (GetRawYUYVData img).buffer[(y * evenWidth img.width + x) * 2 + 1]?
        = some ((RGB2U (img.pixel x y).r (img.pixel x y).g (img.pixel x y).b
            + RGB2U (img.pixel (x + 1) y).r (img.pixel (x + 1) y).g
                (img.pixel (x + 1) y).b) / 2)
    ∧ (GetRawYUYVData img).buffer[(y * evenWidth img.width + x) * 2 + 2]?
        = some (RGB2Y (img.pixel (x + 1) y).r (img.pixel (x + 1) y).g
            (img.pixel (x + 1) y).b)
    ∧ (GetRawYUYVData img).buffer[(y * evenWidth img.width + x) * 2 + 3]?
        = some ((RGB2V (img.pixel x y).r (img.pixel x y).g (img.pixel x y).b
            + RGB2V (img.pixel (x + 1) y).r (img.pixel (x + 1) y).g
                (img.pixel (x + 1) y).b) / 2) := by
  refine ⟨?_, ?_, ?_, ?_⟩
  · simpa using getElem?_encodeBuffer img y x 0 hy hxe hx (by omega)
  · simpa using getElem?_encodeBuffer img y x 1 hy hxe hx (by omega)
  · simpa using getElem?_encodeBuffer img y x 2 hy hxe hx (by omega)
  · simpa using getElem?_encodeBuffer img y x 3 hy hxe hx (by omega)

/-- Witness for C3: concrete 2×1 image with two distinct pixels. -/
theorem c3_chroma_average_per_pair_witness :
    (GetRawYUYVData ⟨2, 1, fun x _ => if x = 0 then ⟨255, 0, 0⟩ else ⟨0, 0, 255⟩⟩).buffer[
        (0 * evenWidth (2 : Nat) + 0) * 2 + 1]?
      = some ((RGB2U 255 0 0 + RGB2U 0 0 255) / 2) := by
  have h := (c3_chroma_average_per_pair
    ⟨2, 1, fun x _ => if x = 0 then ⟨255, 0, 0⟩ else ⟨0, 0, 255⟩⟩ 0 0
    (by decide) (by decide) (by decide)).2.1
  simpa using h

/-- C4: the output height always equals the input height; for even width the
buffer has length `W * H * 2`; for odd width the returned effective width is
`W - 1` and the buffer has length `(W - 1) * H * 2`. -/
theorem c4_buffer_size_and_dims (img : Image) :
    (GetRawYUYVData img).out_h = img.height
    ∧ (img.width % 2 = 0 →
        (GetRawYUYVData img).buffer.length = img.width * img.height * 2)
    ∧ (img.width % 2 = 1 →
        (GetRawYUYVData img).out_w = img.width - 1
        ∧ (GetRawYUYVData img).buffer.length = (img.width - 1) * img.height * 2) := by
  refine ⟨rfl, ?_, ?_⟩
  · intro h
    show (encodeBuffer img).length = _
    rw [length_encodeBuffer, evenWidth_of_even h]
  · intro h
    exact ⟨evenWidth_of_odd h, by
      show (encodeBuffer img).length = _
      rw [length_encodeBuffer, evenWidth_of_odd h]⟩

/-- Witness for C4: a 3×2 black image has `out_h = 2`, `out_w = 2`, and an
`(3-1)*2*2 = 8`-byte buffer. -/
theorem c4_buffer_size_and_dims_witness :
    (GetRawYUYVData ⟨3, 2, fun _ _ => ⟨0, 0, 0⟩⟩).out_h = 2
    ∧ (GetRawYUYVData ⟨3, 2, fun _ _ => ⟨0, 0, 0⟩⟩).out_w = 3 - 1
    ∧ (GetRawYUYVData ⟨3, 2, fun _ _ => ⟨0, 0, 0⟩⟩).buffer.length = (3 - 1) * 2 * 2 :=
  ⟨(c4_buffer_size_and_dims ⟨3, 2, fun _ _ => ⟨0, 0, 0⟩⟩).1,
   ((c4_buffer_size_and_dims ⟨3, 2, fun _ _ => ⟨0, 0, 0⟩⟩).2.2 (by decide)).1,
   ((c4_buffer_size_and_dims ⟨3, 2, fun _ _ => ⟨0, 0, 0⟩⟩).2.2 (by decide)).2⟩

lemma evenWidth_le (w : Nat) : evenWidth w ≤ w := by
  unfold evenWidth
  split <;> omega

lemma flatMap_fun_nil {α β : Type} (l : List α) :
    l.flatMap (fun _ => ([] : List β)) = [] := by
  induction l <;> simp_all

/-- Buffers agree whenever the truncated widths, the heights, and the pixels
inside the encoded region agree. -/
lemma encodeBuffer_ext (img1 img2 : Image)
    (hw : evenWidth img1.width = evenWidth img2.width)
    (hh : img1.height = img2.height)
    (hp : ∀ x y, x < evenWidth img1.width → y < img1.height →
      img1.pixel x y = img2.pixel x y) :
    encodeBuffer img1 = encodeBuffer img2 := by
  unfold encodeBuffer encodeRow
  rw [← hw, ← hh]
  apply List.flatMap_congr
  intro y hy
  rw [List.mem_range] at hy
  apply List.flatMap_congr
  intro i hi
  rw [List.mem_range] at hi
  have h2 : evenWidth img1.width % 2 = 0 := evenWidth_mod_two img1.width
  rw [hp _ _ (by omega) hy, hp _ _ (by omega) hy]

/-- Pair-group count: `out_w * out_h / 2` equals rows times pairs per row. -/
lemma pairCount_eq (img : Image) :
    evenWidth img.width * img.height / 2
      = img.height * (evenWidth img.width / 2) := by
  have h2 : evenWidth img.width % 2 = 0 := evenWidth_mod_two img.width
  obtain ⟨k, hk⟩ : ∃ k, evenWidth img.width = 2 * k := ⟨evenWidth img.width / 2, by omega⟩
  rw [hk, show 2 * k * img.height = 2 * (k * img.height) from by ring,
    Nat.mul_div_cancel_left _ (by omega : 0 < 2),
    show 2 * k / 2 = k from by omega, Nat.mul_comm]

/-- C5: every source read performed by the encoder is in bounds (`x < Width`,
`y < Height`) with no runtime check, and the output depends only on the
pixels at those read coordinates, so in particular the last column of an
odd-width image is never read. -/
theorem c5_reads_in_bounds (W H : Nat) :
    (∀ c ∈ accessedCoords W H, c.1 < W ∧ c.2 < H)
    ∧ ∀ img1 img2 : Image, img1.width = W → img1.height = H →
        img2.width = W → img2.height = H →
        (∀ c ∈ accessedCoords W H, img1.pixel c.1 c.2 = img2.pixel c.1 c.2) →
        encodeBuffer img1 = encodeBuffer img2 := by
  constructor
  · intro c hc
    obtain ⟨h1, h2⟩ := accessedCoords_bound hc
    exact ⟨lt_of_lt_of_le h1 (evenWidth_le W), h2⟩
  · intro img1 img2 h1w h1h h2w h2h hp
    apply encodeBuffer_eq_of_agree
    · rw [h2w, h1w]
    · rw [h2h, h1h]
    · intro c hc
      apply hp
      rw [h1w, h1h] at hc
      exact hc

/-- Witness for C5: the first read of a 2×1 encode is the in-bounds (0, 0). -/
theorem c5_reads_in_bounds_witness : (0, 0).1 < 2 ∧ (0, 0).2 < 1 :=
  (c5_reads_in_bounds 2 1).1 (0, 0) (by decide)

/-- C6: width 0 or width 1 gives effective width 0 and an empty buffer,
whatever the height. -/
theorem c6_degenerate_width (img : Image) (h : img.width = 0 ∨ img.width = 1) :
    (GetRawYUYVData img).out_w = 0 ∧ (GetRawYUYVData img).buffer = [] := by
  have hw : evenWidth img.width = 0 := by
    rcases h with h | h <;> rw [h] <;> rfl
  refine ⟨hw, ?_⟩
  show encodeBuffer img = []
  unfold encodeBuffer encodeRow
  rw [hw]
  simp [flatMap_fun_nil]

/-- Witness for C6: a 1×5 image encodes to nothing. -/
theorem c6_degenerate_width_witness :
    (GetRawYUYVData ⟨1, 5, fun _ _ => ⟨9, 9, 9⟩⟩).out_w = 0
    ∧ (GetRawYUYVData ⟨1, 5, fun _ _ => ⟨9, 9, 9⟩⟩).buffer = [] :=
  c6_degenerate_width ⟨1, 5, fun _ _ => ⟨9, 9, 9⟩⟩ (Or.inr rfl)

/-- C7: a pure-black image encodes to the group `(16, 128, 16, 128)` repeated
once per pixel pair, matching the hand-computed formula values. -/
theorem c7_black_image_bytes (img : Image)
    (hp : ∀ x y, img.pixel x y = ⟨0, 0, 0⟩) :
    (GetRawYUYVData img).buffer
      = (List.replicate
          ((GetRawYUYVData img).out_w * (GetRawYUYVData img).out_h / 2)
          [16, 128, 16, 128]).flatten := by
  show encodeBuffer img = (List.replicate (evenWidth img.width * img.height / 2) _).flatten
  rw [encodeBuffer_uniform img ⟨0, 0, 0⟩ hp, pairCount_eq,
    show yuyvPack ⟨0, 0, 0⟩ ⟨0, 0, 0⟩ = [16, 128, 16, 128] from by decide]

/-- Witness for C7: a black 4×1 image gives two groups of `(16,128,16,128)`. -/
theorem c7_black_image_bytes_witness :
    (GetRawYUYVData ⟨4, 1, fun _ _ => ⟨0, 0, 0⟩⟩).buffer
      = (List.replicate
          ((GetRawYUYVData ⟨4, 1, fun _ _ => ⟨0, 0, 0⟩⟩).out_w
            * (GetRawYUYVData ⟨4, 1, fun _ _ => ⟨0, 0, 0⟩⟩).out_h / 2)
          [16, 128, 16, 128]).flatten :=
  c7_black_image_bytes ⟨4, 1, fun _ _ => ⟨0, 0, 0⟩⟩ (fun _ _ => rfl)

/-- C8: on a uniform image every emitted macropixel group is the same group
`yuyvPack c c`, and within the group the two luma bytes agree. -/
theorem c8_uniform_image_groups (img : Image) (c : Pixel)
    (hp : ∀ x y, img.pixel x y = c) :
    (GetRawYUYVData img).buffer
      = (List.replicate
          ((GetRawYUYVData img).out_w * (GetRawYUYVData img).out_h / 2)
          (yuyvPack c c)).flatten
    ∧ (yuyvPack c c)[0]? = (yuyvPack c c)[2]? := by
  constructor
  · show encodeBuffer img
      = (List.replicate (evenWidth img.width * img.height / 2) _).flatten
    rw [encodeBuffer_uniform img c hp, pairCount_eq]
  · rfl

/-- Witness for C8: a uniform 2×1 image. -/
theorem c8_uniform_image_groups_witness :
    (GetRawYUYVData ⟨2, 1, fun _ _ => ⟨10, 20, 30⟩⟩).buffer
      = (List.replicate
          ((GetRawYUYVData ⟨2, 1, fun _ _ => ⟨10, 20, 30⟩⟩).out_w
            * (GetRawYUYVData ⟨2, 1, fun _ _ => ⟨10, 20, 30⟩⟩).out_h / 2)
          (yuyvPack ⟨10, 20, 30⟩ ⟨10, 20, 30⟩)).flatten
    ∧ (yuyvPack ⟨10, 20, 30⟩ ⟨10, 20, 30⟩)[0]?
        = (yuyvPack ⟨10, 20, 30⟩ ⟨10, 20, 30⟩)[2]? :=
  c8_uniform_image_groups ⟨2, 1, fun _ _ => ⟨10, 20, 30⟩⟩ ⟨10, 20, 30⟩ (fun _ _ => rfl)

/-- C9: the encoder is a deterministic pure function of its input: images
with the same dimensions and pixelwise-equal pixel functions produce
identical results (buffer, effective width, and height). -/
theorem c9_encoder_deterministic (img1 img2 : Image)
    (hw : img1.width = img2.width) (hh : img1.height = img2.height)
    (hp : ∀ x y, img1.pixel x y = img2.pixel x y) :
    GetRawYUYVData img1 = GetRawYUYVData img2 := by
  have hb : encodeBuffer img1 = encodeBuffer img2 :=
    encodeBuffer_eq_of_agree img1 img2 hw.symm hh.symm (fun c _ => hp c.1 c.2)
  unfold GetRawYUYVData
  rw [hb, hw, hh]

/-- Witness for C9: the same uniform image given by two different pixel
closures. -/
theorem c9_encoder_deterministic_witness :
    GetRawYUYVData ⟨2, 1, fun _ _ => ⟨10, 20, 30⟩⟩
      = GetRawYUYVData ⟨2, 1, fun _ _ => ⟨5 + 5, 20, 30⟩⟩ :=
  c9_encoder_deterministic _ _ rfl rfl (fun _ _ => rfl)

/-- C10: for odd width the whole result equals the result on the image
restricted to the first `Width - 1` columns, and any two images of that odd
width and same height agreeing off the last column encode identically. -/
theorem c10_last_column_irrelevant (img : Image) (hodd : img.width % 2 = 1) :
    GetRawYUYVData img
        = GetRawYUYVData ⟨img.width - 1, img.height, img.pixel⟩
    ∧ ∀ img2 : Image, img2.width = img.width → img2.height = img.height →
        (∀ x y, x + 1 < img.width → img.pixel x y = img2.pixel x y) →
        GetRawYUYVData img = GetRawYUYVData img2 := by
  have hwe : evenWidth img.width = evenWidth (img.width - 1) := by
    rw [evenWidth_of_odd hodd, evenWidth_of_even (by omega)]
  constructor
  · have hb : encodeBuffer img
        = encodeBuffer ⟨img.width - 1, img.height, img.pixel⟩ :=
      encodeBuffer_ext _ _ hwe rfl (fun _ _ _ _ => rfl)
    show (⟨encodeBuffer img, evenWidth img.width, img.height⟩ : YUYVResult) = _
    rw [hb, hwe]
    rfl
  · intro img2 h2w h2h hp2
    have hwe2 : evenWidth img.width = evenWidth img2.width := by rw [h2w]
    have hb2 : encodeBuffer img = encodeBuffer img2 := by
      apply encodeBuffer_ext _ _ hwe2 h2h.symm
      intro x y hx _
      apply hp2
      rw [evenWidth_of_odd hodd] at hx
      omega
    show (⟨encodeBuffer img, evenWidth img.width, img.height⟩ : YUYVResult) = _
    rw [hb2, hwe2, ← h2h]
    rfl

/-- First source image for the C10 witness: width 3, last column coloured. -/
def oddImgA : Image := ⟨3, 1, fun x _ => if x = 2 then ⟨200, 100, 50⟩ else ⟨1, 2, 3⟩⟩

/-- Second source image for the C10 witness: same except in the last column. -/
def oddImgB : Image := ⟨3, 1, fun x _ => if x = 2 then ⟨7, 7, 7⟩ else ⟨1, 2, 3⟩⟩

/-- Witness for C10: the two 3×1 images differing only in the dropped last
column encode to the same result. -/
theorem c10_last_column_irrelevant_witness :
    GetRawYUYVData oddImgA = GetRawYUYVData oddImgB :=
  (c10_last_column_irrelevant oddImgA (by decide)).2 oddImgB rfl rfl
    (fun x y hx => by
      have hx3 : x + 1 < 3 := hx
      show (if x = 2 then (⟨200, 100, 50⟩ : Pixel) else ⟨1, 2, 3⟩)
        = (if x = 2 then (⟨7, 7, 7⟩ : Pixel) else ⟨1, 2, 3⟩)
      rw [if_neg (by omega), if_neg (by omega)])

example : RGB2Y 0 0 0 = 16 := by decide
example : RGB2U 0 0 0 = 128 := by decide
example : RGB2V 0 0 0 = 128 := by decide
example : RGB2U 255 255 0 = 16 := by decide
example : yuyvPack ⟨0, 0, 0⟩ ⟨0, 0, 0⟩ = [16, 128, 16, 128] := by decide
example : encodeBuffer ⟨3, 1, fun _ _ => ⟨0, 0, 0⟩⟩ = [16, 128, 16, 128] := by decide
example : encodeBuffer ⟨1, 7, fun _ _ => ⟨0, 0, 0⟩⟩ = [] := by decide
example : accessedCoords 3 2 = [(0, 0), (1, 0), (0, 1), (1, 1)] := by decide
